import Mathlib

/-!
Verification of the core sampling and coupling-layer logic of the
`norm_flow_model` repository (`anvil/sample.py`, `anvil/layers.py`).

The Python source is shallowly embedded: real-valued tensors become `List ℚ`
or functions `ℕ → ℚ` (the transcendental `exp` is abstracted as a function
parameter `qexp`, since the claims under scrutiny are about control flow and
exact arithmetic structure, never about the numerical value of `exp`), the
imperative Metropolis-Hastings accept/reject loop becomes a state-passing
recursion, and the IEEE-754 behaviour that the overflow guard in
`sample_batch` depends on is modelled by an explicit datatype `PyFloat`
with `NaN` and signed infinities.
-/

namespace NormFlow

/-! ## Metropolis-Hastings scan (`sample.py`, lines 87-96)

The loop

    i = 0
    for j in range(1, batch_size + 1):
        condition = min(1, exp(float(log_ratio[i] - log_ratio[j])))
        if random() <= condition:
            chain_indices[j - 1] = j
            history[j - 1] = True
            i = j
        else:
            chain_indices[j - 1] = i

is translated as a recursion on the number of completed iterations.  The
state carries the current index `i` and the two output arrays (built up in
reverse, most recent entry first).  The uniform draws `random()` are an
input stream `u : ℕ → ℚ` (`u j` is the draw consumed at iteration `j`). -/

/-- Loop state of the accept/reject scan: current index `i`, and the
`history` / `chain_indices` arrays accumulated so far (reversed). -/
structure MHState where
  i : ℕ
  historyRev : List Bool
  indicesRev : List ℕ
deriving Repr, DecidableEq

/-- One iteration of the accept/reject loop, at proposal index `j`
(`sample.py` lines 89-95).  `cond i j` is the acceptance condition
`min(1, exp(log_ratio[i] - log_ratio[j]))`. -/
def mhUpdate (cond : ℕ → ℕ → ℚ) (u : ℕ → ℚ) (s : MHState) (j : ℕ) : MHState :=
  if u j ≤ cond s.i j then
    { i := j, historyRev := true :: s.historyRev, indicesRev := j :: s.indicesRev }
  else
    { i := s.i, historyRev := false :: s.historyRev, indicesRev := s.i :: s.indicesRev }

/-- State of the scan after iterations `j = 1, …, n`, starting from
`i = 0` with empty output arrays (`sample.py` lines 77-78 and 87). -/
def mhScan (cond : ℕ → ℕ → ℚ) (u : ℕ → ℚ) : ℕ → MHState
  | 0 => { i := 0, historyRev := [], indicesRev := [] }
  | n + 1 => mhUpdate cond u (mhScan cond u n) (n + 1)

/-- The `chain_indices` array after a scan of length `n`, in index order. -/
def chainIndices (cond : ℕ → ℕ → ℚ) (u : ℕ → ℚ) (n : ℕ) : List ℕ :=
  (mhScan cond u n).indicesRev.reverse

/-- The `history` array after a scan of length `n`, in index order. -/
def acceptHistory (cond : ℕ → ℕ → ℚ) (u : ℕ → ℚ) (n : ℕ) : List Bool :=
  (mhScan cond u n).historyRev.reverse

/-- Reference recursion for the current index: `currentIndex j` is the value of
the loop variable `i` after the decision at proposal `j` has been taken
(`currentIndex 0 = 0` is the initial value). -/
def currentIndex (cond : ℕ → ℕ → ℚ) (u : ℕ → ℚ) : ℕ → ℕ
  | 0 => 0
  | j + 1 =>
    if u (j + 1) ≤ cond (currentIndex cond u j) (j + 1) then j + 1
    else currentIndex cond u j

/-- Whether the proposal at index `j + 1` is accepted. -/
def acceptedAt (cond : ℕ → ℕ → ℚ) (u : ℕ → ℚ) (j : ℕ) : Bool :=
  decide (u (j + 1) ≤ cond (currentIndex cond u j) (j + 1))

/-! ## Checkerboard partition (`layers.py`, `CouplingLayer.__init__`, lines 97-111)

A configuration of length `2 * size_half` is split into passive and active
halves by the slices

    even_sites:  passive = v[0:size_half],           active = v[size_half:2*size_half]
                 join    = torch.cat  (passive first)
    odd sites:   passive = v[size_half:2*size_half], active = v[0:size_half]
                 join    = lambda a: torch.cat((a[1], a[0]))  (active first)
-/

/-- Python slice `v[a:b]` on a list. -/
def sliceList (v : List ℚ) (a b : ℕ) : List ℚ := (v.take b).drop a

/-- The passive half `v[self._passive_ind]`. -/
def passiveSlice (evenSites : Bool) (sizeHalf : ℕ) (v : List ℚ) : List ℚ :=
  if evenSites then sliceList v 0 sizeHalf else sliceList v sizeHalf (2 * sizeHalf)

/-- The active half `v[self._active_ind]`. -/
def activeSlice (evenSites : Bool) (sizeHalf : ℕ) (v : List ℚ) : List ℚ :=
  if evenSites then sliceList v sizeHalf (2 * sizeHalf) else sliceList v 0 sizeHalf

/-- The layer's `_join_func` applied to `[passive, transformed_active]`:
`torch.cat` for even sites, `torch.cat((a[1], a[0]))` for odd sites. -/
def joinHalves (evenSites : Bool) (passive active : List ℚ) : List ℚ :=
  if evenSites then passive ++ active else active ++ passive

/-! ## Log-ratio and batch assembly (`sample.py`, lines 64-97)

`sample_batch` draws `batch_size + 1` candidate configurations `phi` with
model log-densities, optionally overwrites index `0` with the carried-in
state, and computes (line 80)

    log_ratio = model_log_density + action(phi) - generator.log_volume_element(phi)

The configurations are abstract (`phi : ℕ → α`); `action` and the volume
element are abstract per-configuration functionals. -/

/-- Overwriting of index 0 by the carried-in chain state (`sample.py`
lines 73-75): `phi[0] = current_state`. -/
def overwrite0 {α : Type} (f : ℕ → α) : Option α → ℕ → α
  | none, k => f k
  | some c, 0 => c
  | some _, k + 1 => f (k + 1)

/-- The log-ratio of line 80: `model_log_density + action(phi) -
generator.log_volume_element(phi)`, componentwise. -/
def logRatio {α : Type} (mld : ℕ → ℚ) (action vol : α → ℚ) (phi : ℕ → α) (j : ℕ) : ℚ :=
  mld j + action (phi j) - vol (phi j)

/-- The acceptance condition of line 89: `min(1, exp(log_ratio[i] - log_ratio[j]))`.
`qexp` abstracts the real exponential. -/
def mhCondition (qexp : ℚ → ℚ) (lr : ℕ → ℚ) (i j : ℕ) : ℚ :=
  min 1 (qexp (lr i - lr j))

/-- The three returned arrays of `sample_batch` (line 97):
`phi[chain_indices, :]`, `model_log_density[chain_indices, :]`, `history`. -/
structure BatchOutput (α : Type) where
  chain : List α
  logDensChain : List ℚ
  history : List Bool

/-- The accept/reject part of `sample_batch` (lines 73-97), after the guard:
overwrite index 0 with any carried state, form the log-ratio, run the scan,
and gather the outputs through `chain_indices`. -/
def sampleBatchScan {α : Type} (qexp : ℚ → ℚ) (mld : ℕ → ℚ) (action vol : α → ℚ)
    (phi : ℕ → α) (u : ℕ → ℚ) (batchSize : ℕ) (cur : Option (α × ℚ)) : BatchOutput α :=
  let phiEff := overwrite0 phi (cur.map Prod.fst)
  let mldEff := overwrite0 mld (cur.map Prod.snd)
  let lr := logRatio mldEff action vol phiEff
  let idxs := chainIndices (mhCondition qexp lr) u batchSize
  { chain := idxs.map phiEff
    logDensChain := idxs.map mldEff
    history := acceptHistory (mhCondition qexp lr) u batchSize }

/-! ## Floating-point view and the overflow guard (`sample.py`, lines 82-85)

The guard

    if not isfinite(exp(float(min(log_ratio) - max(log_ratio)))):
        raise LogRatioNanError(...)

depends on IEEE-754 non-finite values (the log-ratio tensor can contain
`nan`/`±inf` for a degenerate model), so the log-ratio entries are modelled
by an explicit datatype with signed infinities and `NaN`.  Python's builtin
`min`/`max` scan the tensor keeping the running extremum, replacing it only
when a strict `<` (resp. `>`) comparison succeeds — `NaN` comparisons are
always false. -/

/-- An IEEE-754 double: a finite value (idealised as a rational), `±inf`, or `NaN`. -/
inductive PyFloat where
  | fin (q : ℚ)
  | inf
  | neginf
  | nan
deriving Repr, DecidableEq

/-- IEEE-754 `<`: any comparison involving `NaN` is false. -/
def fltLt : PyFloat → PyFloat → Bool
  | .nan, _ => false
  | _, .nan => false
  | .fin p, .fin q => decide (p < q)
  | .fin _, .inf => true
  | .fin _, .neginf => false
  | .neginf, .fin _ => true
  | .neginf, .inf => true
  | .neginf, .neginf => false
  | .inf, _ => false

/-- IEEE-754 `>`. -/
def fltGt (a b : PyFloat) : Bool := fltLt b a

/-- IEEE-754 subtraction (values only matter up to finiteness here;
finite arithmetic is idealised as exact). -/
def fltSub : PyFloat → PyFloat → PyFloat
  | .nan, _ => .nan
  | _, .nan => .nan
  | .fin p, .fin q => .fin (p - q)
  | .fin _, .inf => .neginf
  | .fin _, .neginf => .inf
  | .inf, .fin _ => .inf
  | .inf, .inf => .nan
  | .inf, .neginf => .inf
  | .neginf, .fin _ => .neginf
  | .neginf, .inf => .neginf
  | .neginf, .neginf => .nan

/-- Python's builtin `min` over a sequence: keep the first element, replace the
running value whenever a later element compares strictly smaller. -/
def pyMinAux : List PyFloat → PyFloat → PyFloat
  | [], c => c
  | x :: rest, c => pyMinAux rest (if fltLt x c then x else c)

/-- `min(log_ratio)`.  (Python raises on an empty sequence; `sample_batch`
always applies it to `batch_size + 1 ≥ 1` entries, so the `[]` case is
unreachable and mapped to `NaN`.) -/
def pyMin : List PyFloat → PyFloat
  | [] => .nan
  | x :: rest => pyMinAux rest x

/-- Python's builtin `max`, dually. -/
def pyMaxAux : List PyFloat → PyFloat → PyFloat
  | [], c => c
  | x :: rest, c => pyMaxAux rest (if fltGt x c then x else c)

/-- `max(log_ratio)`. -/
def pyMax : List PyFloat → PyFloat
  | [] => .nan
  | x :: rest => pyMaxAux rest x

/-- `log` of the largest IEEE-754 double: `math.exp q` overflows to `inf`
(hence is non-finite) for finite `q` above this cutoff.  Inside the guard the
argument `min - max` is never a positive finite value (see
`fltSub_pyMin_pyMax_not_pos` below), so only the sign of the cutoff matters. -/
def expOverflowCutoff : ℚ := 709782712893384 / 1000000000000

/-- Finiteness of `math.exp` on a double: `exp(nan) = nan` and `exp(inf) = inf`
are non-finite, `exp(-inf) = 0.0` is finite, and `exp` of a finite value is
finite exactly below the overflow cutoff. -/
def fltExpIsFinite : PyFloat → Bool
  | .nan => false
  | .inf => false
  | .neginf => true
  | .fin q => decide (q < expOverflowCutoff)

/-- The guard value of line 82: `isfinite(exp(float(min(log_ratio) - max(log_ratio))))`. -/
def logRatioGuard (lrF : List PyFloat) : Bool :=
  fltExpIsFinite (fltSub (pyMin lrF) (pyMax lrF))

/-- The exception type raised by `sample_batch` (`sample.py`, lines 21-22, 83-85). -/
inductive SampleError where
  | logRatioNan (msg : String)
deriving Repr, DecidableEq

/-- `sample_batch`-level result: the guard of lines 82-85 is evaluated on the
floating-point view `lrF` of the log-ratio tensor; if it fails the distinct
`LogRatioNanError` is raised and no chain is produced, otherwise the
accept/reject scan runs (on the exact-valued view of the same data). -/
def sampleBatch {α : Type} (lrF : List PyFloat) (qexp : ℚ → ℚ) (mld : ℕ → ℚ)
    (action vol : α → ℚ) (phi : ℕ → α) (u : ℕ → ℚ) (batchSize : ℕ)
    (cur : Option (α × ℚ)) : Except SampleError (BatchOutput α) :=
  if logRatioGuard lrF then
    .ok (sampleBatchScan qexp mld action vol phi u batchSize cur)
  else
    .error (.logRatioNan
      "could run into nans based on minimum and maximum log of ratio of probabilities")

/-- A `sample_batch` call together with its filesystem effects: before anything
else, lines 68-69 unconditionally execute

    np.savetxt("base.txt", z)
    np.savetxt("target.txt", phi)
-/
structure BatchRun (α : Type) where
  fileWrites : List String
  result : Except SampleError (BatchOutput α)

/-- Full effectful embedding of `sample_batch` (lines 64-97). -/
def sampleBatchRun {α : Type} (lrF : List PyFloat) (qexp : ℚ → ℚ) (mld : ℕ → ℚ)
    (action vol : α → ℚ) (phi : ℕ → α) (u : ℕ → ℚ) (batchSize : ℕ)
    (cur : Option (α × ℚ)) : BatchRun α :=
  { fileWrites := ["base.txt", "target.txt"]
    result := sampleBatch lrF qexp mld action vol phi u batchSize cur }

/-! ## Integrated autocorrelation (`sample.py`, `chain_autocorrelation`, lines 180-210)

The loop

    consecutive_rejections = 0
    for step in history:
        if step:
            if consecutive_rejections > 0:
                autocorrelations[1 : consecutive_rejections + 1] += torch.arange(
                    consecutive_rejections, 0, -1, dtype=torch.float)
            consecutive_rejections = 0
        else:
            consecutive_rejections += 1
    if consecutive_rejections > 0:   # pick up last rejection run
        autocorrelations[1 : consecutive_rejections + 1] += torch.arange(...)

    integrated_autocorrelation = 0.5 + torch.sum(
        autocorrelations / torch.arange(sample_size + 1, 0, -1, dtype=torch.float))
    sample_interval = ceil(2 * integrated_autocorrelation)

The bins array (size `N + 1`) is modelled as a function `ℕ → ℚ`; the slice
update `bins[1 : r + 1] += arange(r, 0, -1)` adds `r + 1 - lag` to every lag
in `1..r`.  The elementwise divisor `arange(N + 1, 0, -1)` at index `lag` is
`N + 1 - lag`. -/

/-- `autocorrelations[1 : r + 1] += torch.arange(r, 0, -1)`. -/
def addRun (bins : ℕ → ℚ) (r : ℕ) : ℕ → ℚ := fun lag =>
  if 1 ≤ lag ∧ lag ≤ r then bins lag + ((r : ℚ) + 1 - lag) else bins lag

/-- Loop state of the run accumulation: the bins and the current count of
consecutive rejections. -/
structure AutoState where
  bins : ℕ → ℚ
  consec : ℕ

/-- One iteration of the accumulation loop (`sample.py` lines 187-195). -/
def autoStep (s : AutoState) (step : Bool) : AutoState :=
  if step then
    if 0 < s.consec then { bins := addRun s.bins s.consec, consec := 0 }
    else { bins := s.bins, consec := 0 }
  else { bins := s.bins, consec := s.consec + 1 }

/-- The trailing pick-up of the final rejection run (lines 196-199). -/
def finalizeBins (s : AutoState) : ℕ → ℚ :=
  if 0 < s.consec then addRun s.bins s.consec else s.bins

/-- The `autocorrelations` array computed from an accept/reject history. -/
def autocorrelations (history : List Bool) : ℕ → ℚ :=
  finalizeBins (history.foldl autoStep { bins := fun _ => 0, consec := 0 })

/-- `integrated_autocorrelation` (lines 202-204): `0.5` plus the sum of the
bins divided elementwise by `arange(N + 1, 0, -1)`. -/
def integratedAutocorrelation (history : List Bool) : ℚ :=
  1 / 2 + ∑ lag in Finset.range (history.length + 1),
    autocorrelations history lag / ((history.length : ℚ) + 1 - (lag : ℚ))

/-- The subsampling interval returned by `chain_autocorrelation`
(line 205): `ceil(2 * integrated_autocorrelation)`. -/
def sampleIntervalOf (history : List Bool) : ℤ :=
  ⌈2 * integratedAutocorrelation history⌉

/-- Maximal runs of consecutive rejections (`false` entries) in a history, in
order, carrying the length of the currently open run. -/
def rejectionRunsAux : List Bool → ℕ → List ℕ
  | [], c => if 0 < c then [c] else []
  | true :: rest, c => (if 0 < c then [c] else []) ++ rejectionRunsAux rest 0
  | false :: rest, c => rejectionRunsAux rest (c + 1)

/-- The list of lengths of the maximal rejection runs of a history. -/
def rejectionRuns (history : List Bool) : List ℕ := rejectionRunsAux history 0

/-- The contribution of one maximal rejection run of length `r` to lag bin
`lag`: the decreasing sequence `r, r-1, …, 1` on bins `1..r`. -/
def runContribution (r lag : ℕ) : ℚ :=
  if 1 ≤ lag ∧ lag ≤ r then (r : ℚ) + 1 - (lag : ℚ) else 0

/-- Declarative description of the lag bins: the sum of the contribution of
every maximal rejection run. -/
def runBins (history : List Bool) (lag : ℕ) : ℚ :=
  ((rejectionRuns history).map (fun r => runContribution r lag)).sum

/-- Modelled from the spec's words (§4.4, "normalize each lag bin by
`(N − lag)`; `tau_int = 0.5 + Σ_lag (normalized bin)`; stride
`= ceil(2 * tau_int)`"), with the bins accumulated per maximal rejection run
as the spec describes.  Used only to compare against `sampleIntervalOf`. -/
def specSampleInterval (history : List Bool) : ℤ :=
  ⌈2 * (1 / 2 + ∑ lag in Finset.Icc 1 history.length,
    runBins history lag / ((history.length : ℚ) - (lag : ℚ)))⌉

/-! ## Affine coupling layer (`layers.py`, `AffineLayer.forward`, lines 207-225)

    v_in_passive = v_in[:, self._passive_ind]
    v_in_active = v_in[:, self._active_ind]
    v_for_net = (v_in_passive - v_in_passive.mean()) / v_in_passive.std()
    s_out = self.s_network(v_for_net)
    t_out = self.t_network(v_for_net)
    if self.z2_equivar:
        s_out.abs_()
    v_out = self._join_func([v_in_passive, (v_in_active - t_out) * torch.exp(-s_out)], dim=1)
    log_density += s_out.sum(dim=1, keepdim=True)
-/

/-- `AffineLayer.forward` for one batch element.  The neural networks
`sNet`, `tNet` and the standardisation `(v_passive - mean) / std` of line 211
(whose mean/σ are real-valued) are abstract function parameters; the
statements proved below hold for every instantiation.  `qexp` abstracts
`torch.exp`.  Note that the in-place `s_out.abs_()` happens before `s_out`
is used both in the transformation and in the log-density update. -/
def affineForward (evenSites : Bool) (sizeHalf : ℕ) (qexp : ℚ → ℚ)
    (stand sNet tNet : List ℚ → List ℚ) (z2Equivar : Bool)
    (v : List ℚ) (logDensity : ℚ) : List ℚ × ℚ :=
  let vPassive := passiveSlice evenSites sizeHalf v
  let vActive := activeSlice evenSites sizeHalf v
  let vForNet := stand vPassive
  let sOutRaw := sNet vForNet
  let tOut := tNet vForNet
  let sOut := if z2Equivar then sOutRaw.map (fun x => |x|) else sOutRaw
  let vActiveOut :=
    List.zipWith (fun a st => (a - st.2) * qexp (-st.1)) vActive (sOut.zip tOut)
  (joinHalves evenSites vPassive vActiveOut, logDensity + sOut.sum)

/-- Whether index `k` of the configuration vector belongs to the passive
slice (`_passive_ind`) for the given parity. -/
def passivePos (evenSites : Bool) (sizeHalf k : ℕ) : Prop :=
  if evenSites then k < sizeHalf else sizeHalf ≤ k

/-- The position within the active slice corresponding to configuration
index `k` (for `k` in the active slice). -/
def activeIdxOf (evenSites : Bool) (sizeHalf k : ℕ) : ℕ :=
  if evenSites then k - sizeHalf else k

/-! ## Shared bin locator (`layers.py`, lines 299-303 and 571-577)

    k_this_segment = (searchsorted(knots_xcoords, v.view(-1, 1)) - 1).clamp(0, n_segments - 1)

`torchsearchsorted.searchsorted` follows `numpy.searchsorted` with its
default `side='left'`: it returns the leftmost insertion index keeping the
row sorted, i.e. the number of knots strictly below the query. -/

/-- `searchsorted` (`side='left'`) of a single query against one knot row. -/
def searchsortedLeft (knots : List ℚ) (v : ℚ) : ℕ :=
  knots.countP (fun x => decide (x < v))

/-- The shared bin lookup: `searchsorted` minus one, clamped to `[0, K-1]`
(truncated `ℕ` subtraction realises the lower clamp). -/
def binLocator (nSegments : ℕ) (knots : List ℚ) (v : ℚ) : ℕ :=
  min (searchsortedLeft knots v - 1) (nSegments - 1)

/-- The batched bin lookup: one independent search per (batch, site) query. -/
def binLocatorBatch (nSegments : ℕ) (knots : List ℚ) (vs : List ℚ) : List ℕ :=
  vs.map (binLocator nSegments knots)

/-! ## Rational quadratic spline layer (`layers.py`, lines 509-628) -/

/-- `RationalQuadraticSplineLayer.forward`, translated up to the first
statement that (in every execution path) references an undefined Python name
and therefore raises `NameError`:

* with `z2_equivar` set, line 519 reads `v_in_passive_stand`, which is never
  bound (the standardised passive half is called `v_for_net`, line 513);
* otherwise execution reaches line 547, where the derivative padding reads
  `d_raw`, which is never bound (the network output split calls it `d_net`,
  line 530); lines 592 and 609 would later read the likewise-unbound name
  `inside_mask`.

The computations preceding the failing statement are modelled faithfully: in
particular lines 521-528 build the output buffer `v_out_b` as zeros inside
the interval mask `|v| ≤ B` and as the identity copy outside it. -/
def rqsForward (evenSites : Bool) (sizeHalf : ℕ) (B : ℚ) (z2Equivar : Bool)
    (v : List ℚ) (logDensity : ℚ) : Except String (List ℚ × ℚ) :=
  let vActive := activeSlice evenSites sizeHalf v
  if z2Equivar then
    .error "NameError: name v_in_passive_stand is not defined"
  else
    let _vOutTails := vActive.map (fun x => if |x| ≤ B then 0 else x)
    .error "NameError: name d_raw is not defined"

/-! ## Derived definitions used in the claim statements -/

/-- The effective (post-overwrite) configuration sequence of a batch:
index 0 carries the previous chain state when one is supplied. -/
def effPhi {α : Type} (phi : ℕ → α) (cur : Option (α × ℚ)) : ℕ → α :=
  overwrite0 phi (cur.map Prod.fst)

/-- The effective model log-density sequence of a batch. -/
def effMld {α : Type} (mld : ℕ → ℚ) (cur : Option (α × ℚ)) : ℕ → ℚ :=
  overwrite0 mld (cur.map Prod.snd)

/-- The log-ratio sequence a batch actually uses (`sample.py` line 80, after
the index-0 overwrite of lines 73-75). -/
def effLogRatio {α : Type} (mld : ℕ → ℚ) (action vol : α → ℚ) (phi : ℕ → α)
    (cur : Option (α × ℚ)) : ℕ → ℚ :=
  logRatio (effMld mld cur) action vol (effPhi phi cur)

/-- The acceptance-condition function a batch actually uses. -/
def scanCond {α : Type} (qexp : ℚ → ℚ) (mld : ℕ → ℚ) (action vol : α → ℚ)
    (phi : ℕ → α) (cur : Option (α × ℚ)) : ℕ → ℕ → ℚ :=
  mhCondition qexp (effLogRatio mld action vol phi cur)

/-- Modelled from the spec's words (§4.4 step 4: "Compute `log_ratio_j =
model_log_density_j − action(config_j)` […] corrected by any base/target
volume-element term").  Used only for comparison with the code's `logRatio`. -/
def specLogRatio {α : Type} (mld : ℕ → ℚ) (action vol : α → ℚ) (phi : ℕ → α)
    (j : ℕ) : ℚ :=
  mld j - action (phi j) - vol (phi j)

/-- The `s` values actually used by `AffineLayer.forward`: the raw network
output, replaced by its absolute value when `z2_equivar` is set (line 218). -/
def affineS (evenSites : Bool) (sizeHalf : ℕ) (stand sNet : List ℚ → List ℚ)
    (z2Equivar : Bool) (v : List ℚ) : List ℚ :=
  if z2Equivar then (sNet (stand (passiveSlice evenSites sizeHalf v))).map (fun x => |x|)
  else sNet (stand (passiveSlice evenSites sizeHalf v))

/-- The `t` values used by `AffineLayer.forward`. -/
def affineT (evenSites : Bool) (sizeHalf : ℕ) (stand tNet : List ℚ → List ℚ)
    (v : List ℚ) : List ℚ :=
  tNet (stand (passiveSlice evenSites sizeHalf v))

/-- Order on non-`NaN` IEEE values (`False` whenever `NaN` is involved);
used to state that `min(log_ratio) - max(log_ratio)` is never a positive
finite value. -/
def extLe : PyFloat → PyFloat → Prop
  | .fin p, .fin q => p ≤ q
  | .fin _, .inf => True
  | .fin _, .neginf => False
  | .fin _, .nan => False
  | .inf, .inf => True
  | .inf, _ => False
  | .neginf, .nan => False
  | .neginf, _ => True
  | .nan, _ => False

theorem mhScan_i (cond : ℕ → ℕ → ℚ) (u : ℕ → ℚ) (n : ℕ) :
    (mhScan cond u n).i = currentIndex cond u n := by
  induction n with
  | zero => rfl
  | succ n ih =>
    simp only [mhScan, mhUpdate, currentIndex, ih]
    split <;> rfl

theorem mhScan_historyRev (cond : ℕ → ℕ → ℚ) (u : ℕ → ℚ) (n : ℕ) :
    (mhScan cond u n).historyRev =
      ((List.range n).map (acceptedAt cond u)).reverse := by
  induction n with
  | zero => rfl
  | succ n ih =>
    have hrhs : ((List.range (n + 1)).map (acceptedAt cond u)).reverse
        = acceptedAt cond u n :: ((List.range n).map (acceptedAt cond u)).reverse := by
      rw [List.range_succ, List.map_append]
      simp
    rw [hrhs]
    show (mhUpdate cond u (mhScan cond u n) (n + 1)).historyRev = _
    rw [mhUpdate]
    by_cases h : u (n + 1) ≤ cond (mhScan cond u n).i (n + 1)
    · have ha : acceptedAt cond u n = true := by
        rw [acceptedAt, decide_eq_true_eq]
        rwa [mhScan_i] at h
      rw [if_pos h]
      simp [ha, ih]
    · have ha : acceptedAt cond u n = false := by
        rw [acceptedAt, decide_eq_false_iff_not]
        rwa [mhScan_i] at h
      rw [if_neg h]
      simp [ha, ih]

theorem mhScan_indicesRev (cond : ℕ → ℕ → ℚ) (u : ℕ → ℚ) (n : ℕ) :
    (mhScan cond u n).indicesRev =
      ((List.range n).map (fun t => currentIndex cond u (t + 1))).reverse := by
  induction n with
  | zero => rfl
  | succ n ih =>
    have hrhs : ((List.range (n + 1)).map (fun t => currentIndex cond u (t + 1))).reverse
        = currentIndex cond u (n + 1)
          :: ((List.range n).map (fun t => currentIndex cond u (t + 1))).reverse := by
      rw [List.range_succ, List.map_append]
      simp
    rw [hrhs]
    show (mhUpdate cond u (mhScan cond u n) (n + 1)).indicesRev = _
    rw [mhUpdate]
    by_cases h : u (n + 1) ≤ cond (mhScan cond u n).i (n + 1)
    · have hc : currentIndex cond u (n + 1) = n + 1 := by
        simp only [currentIndex]
        rw [if_pos (by rwa [mhScan_i] at h)]
      rw [if_pos h]
      simp [hc, ih]
    · have hc : currentIndex cond u (n + 1) = currentIndex cond u n := by
        simp only [currentIndex]
        rw [if_neg (by rwa [mhScan_i] at h)]
      rw [if_neg h]
      simp [hc, ih, mhScan_i]

theorem chainIndices_eq (cond : ℕ → ℕ → ℚ) (u : ℕ → ℚ) (n : ℕ) :
    chainIndices cond u n = (List.range n).map (fun t => currentIndex cond u (t + 1)) := by
  simp [chainIndices, mhScan_indicesRev]

theorem acceptHistory_eq (cond : ℕ → ℕ → ℚ) (u : ℕ → ℚ) (n : ℕ) :
    acceptHistory cond u n = (List.range n).map (acceptedAt cond u) := by
  simp [acceptHistory, mhScan_historyRev]

/-- Generic indexing helper: element `t` of `(List.range n).map f`. -/
theorem getD_map_range {α : Type} (f : ℕ → α) (d : α) {n t : ℕ} (h : t < n) :
    ((List.range n).map f).getD t d = f t := by
  rw [List.getD_eq_getElem?_getD, List.getElem?_map, List.getElem?_range h]
  rfl

theorem passiveSlice_even (sizeHalf : ℕ) (v : List ℚ) :
    passiveSlice true sizeHalf v = v.take sizeHalf := by
  simp [passiveSlice, sliceList]

theorem activeSlice_even (sizeHalf : ℕ) (v : List ℚ) (hv : v.length = 2 * sizeHalf) :
    activeSlice true sizeHalf v = v.drop sizeHalf := by
  simp [activeSlice, sliceList, List.take_of_length_le hv.le]

theorem passiveSlice_odd (sizeHalf : ℕ) (v : List ℚ) (hv : v.length = 2 * sizeHalf) :
    passiveSlice false sizeHalf v = v.drop sizeHalf := by
  simp [passiveSlice, sliceList, List.take_of_length_le hv.le]

theorem activeSlice_odd (sizeHalf : ℕ) (v : List ℚ) :
    activeSlice false sizeHalf v = v.take sizeHalf := by
  simp [activeSlice, sliceList]

theorem finalizeBins_foldl (history : List Bool) :
    ∀ (bins : ℕ → ℚ) (c : ℕ) (lag : ℕ),
      finalizeBins (history.foldl autoStep { bins := bins, consec := c }) lag =
        bins lag + ((rejectionRunsAux history c).map (fun r => runContribution r lag)).sum := by
  induction history with
  | nil =>
    intro bins c lag
    simp only [List.foldl_nil, finalizeBins, rejectionRunsAux]
    by_cases hc : 0 < c
    · simp [hc, addRun, runContribution]
      by_cases hl : 1 ≤ lag ∧ lag ≤ c <;> simp [hl]
    · simp [hc]
  | cons b rest ih =>
    intro bins c lag
    cases b with
    | true =>
      simp only [List.foldl_cons, autoStep, if_pos rfl, rejectionRunsAux]
      by_cases hc : 0 < c
      · simp only [hc, if_pos hc, ite_true, ih, List.map_append, List.sum_append,
          List.map_cons, List.map_nil, List.sum_cons, List.sum_nil]
        simp [addRun, runContribution]
        by_cases hl : 1 ≤ lag ∧ lag ≤ c <;> simp [hl] <;> ring
      · simp only [hc, if_neg hc, ite_false, ih]
        simp
    | false =>
      simp only [List.foldl_cons, autoStep, rejectionRunsAux]
      simp only [Bool.false_eq_true, if_neg (by simp : ¬False)]
      exact ih bins (c + 1) lag

/-- The imperative run-accumulation loop computes exactly the per-run bins. -/
theorem autocorrelations_eq_runBins (history : List Bool) (lag : ℕ) :
    autocorrelations history lag = runBins history lag := by
  have h := finalizeBins_foldl history (fun _ => 0) 0 lag
  simpa [autocorrelations, runBins, rejectionRuns] using h

/-! ## Indexing helpers for list slices -/

theorem getD_take {α : Type} (l : List α) (m n : ℕ) (d : α) (h : n < m) :
    (l.take m).getD n d = l.getD n d := by
  rw [List.getD_eq_getElem?_getD, List.getD_eq_getElem?_getD, List.getElem?_take, if_pos h]

theorem getD_drop {α : Type} (l : List α) (m n : ℕ) (d : α) :
    (l.drop m).getD n d = l.getD (m + n) d := by
  rw [List.getD_eq_getElem?_getD, List.getD_eq_getElem?_getD, List.getElem?_drop]

theorem getD_zipWith {α β γ : Type} (f : α → β → γ) (da : α) (db : β) (dc : γ) :
    ∀ (as : List α) (bs : List β) (n : ℕ), n < as.length → n < bs.length →
      (List.zipWith f as bs).getD n dc = f (as.getD n da) (bs.getD n db)
  | [], _, n, ha, _ => absurd ha (by simp)
  | _ :: _, [], n, _, hb => absurd hb (by simp)
  | a :: as, b :: bs, 0, _, _ => rfl
  | a :: as, b :: bs, n + 1, ha, hb => by
    simp only [List.zipWith_cons_cons, List.getD_cons_succ]
    exact getD_zipWith f da db dc as bs n (by simpa using ha) (by simpa using hb)

theorem getD_zip {α β : Type} (da : α) (db : β) (as : List α) (bs : List β) (n : ℕ)
    (ha : n < as.length) (hb : n < bs.length) :
    (as.zip bs).getD n (da, db) = (as.getD n da, bs.getD n db) := by
  have h : as.zip bs = List.zipWith Prod.mk as bs := rfl
  rw [h]
  exact getD_zipWith Prod.mk da db (da, db) as bs n ha hb

theorem getD_map' {α β : Type} (f : α → β) (l : List α) (n : ℕ) (d : β) (d' : α)
    (h : n < l.length) : (l.map f).getD n d = f (l.getD n d') := by
  rw [List.getD_eq_getElem?_getD, List.getElem?_map, List.getElem?_eq_getElem (by exact h),
    List.getD_eq_getElem (l := l) (d := d') h]
  rfl

/-! ### Characterisation of `searchsorted` on strictly increasing knot rows -/

theorem searchsortedLeft_eq_zero (v : ℚ) (l : List ℚ)
    (hmono : ∀ i j, i < j → j < l.length → l.getD i 0 < l.getD j 0)
    (hv : v ≤ l.getD 0 0) : searchsortedLeft l v = 0 := by
  rw [searchsortedLeft, List.countP_eq_zero]
  intro a ha
  obtain ⟨m, hm, rfl⟩ := List.mem_iff_getElem.mp ha
  rw [← List.getD_eq_getElem (l := l) (d := 0) hm]
  simp only [decide_eq_true_eq, not_lt]
  rcases Nat.eq_zero_or_pos m with rfl | hmpos
  · exact hv
  · exact hv.trans (hmono 0 m hmpos hm).le

theorem searchsortedLeft_eq_length (v : ℚ) (l : List ℚ)
    (hmono : ∀ i j, i < j → j < l.length → l.getD i 0 < l.getD j 0)
    (hv : l.getD (l.length - 1) 0 < v) :
    searchsortedLeft l v = l.length := by
  rw [searchsortedLeft, List.countP_eq_length]
  intro a ha
  obtain ⟨m, hm, rfl⟩ := List.mem_iff_getElem.mp ha
  rw [← List.getD_eq_getElem (l := l) (d := 0) hm]
  simp only [decide_eq_true_eq]
  rcases eq_or_lt_of_le (Nat.le_sub_one_of_lt hm) with hlast | hmid
  · rwa [hlast]
  · exact (hmono m (l.length - 1) hmid (by omega)).trans hv

theorem searchsortedLeft_sorted (v : ℚ) :
    ∀ (k : ℕ) (l : List ℚ),
      (∀ i j, i < j → j < l.length → l.getD i 0 < l.getD j 0) →
      k + 1 < l.length → l.getD k 0 < v → v ≤ l.getD (k + 1) 0 →
      searchsortedLeft l v = k + 1 := by
  intro k
  induction k with
  | zero =>
    intro l hmono hlen hlow hhigh
    match l with
    | x :: t =>
      have hx : x < v := hlow
      rw [searchsortedLeft, List.countP_cons, List.countP_eq_zero.mpr, if_pos (by simpa using hx)]
      intro a ha
      obtain ⟨m, hm, rfl⟩ := List.mem_iff_getElem.mp ha
      rw [← List.getD_eq_getElem (l := t) (d := 0) hm]
      simp only [decide_eq_true_eq, not_lt]
      have h0 : v ≤ t.getD 0 0 := hhigh
      rcases Nat.eq_zero_or_pos m with rfl | hmpos
      · exact h0
      · have := hmono 1 (m + 1) (by omega) (by simpa using hm)
        simp only [List.getD_cons_succ] at this
        exact h0.trans this.le
  | succ k ih =>
    intro l hmono hlen hlow hhigh
    match l with
    | x :: t =>
      have hlen' : k + 1 < t.length := by simpa using hlen
      have hmono' : ∀ i j, i < j → j < t.length → t.getD i 0 < t.getD j 0 := by
        intro i j hij hj
        have := hmono (i + 1) (j + 1) (by omega) (by simpa using hj)
        simpa using this
      have hx : x < v := by
        have := hmono 0 (k + 1) (by omega) (by omega)
        simp only [List.getD_cons_zero, List.getD_cons_succ] at this
        exact this.trans hlow
      rw [searchsortedLeft, List.countP_cons, if_pos (by simpa using hx)]
      have ht : searchsortedLeft t v = k + 1 := ih t hmono' hlen' hlow hhigh
      rw [searchsortedLeft] at ht
      omega

/-! ### Supporting lemmas about the scan index -/

theorem currentIndex_le (cond : ℕ → ℕ → ℚ) (u : ℕ → ℚ) (n : ℕ) :
    currentIndex cond u n ≤ n := by
  induction n with
  | zero => exact le_refl 0
  | succ n ih =>
    simp only [currentIndex]
    split
    · exact le_refl _
    · exact ih.trans (Nat.le_succ n)

theorem currentIndex_mono (cond : ℕ → ℕ → ℚ) (u : ℕ → ℚ) {m n : ℕ} (h : m ≤ n) :
    currentIndex cond u m ≤ currentIndex cond u n := by
  induction n with
  | zero => simp [Nat.le_zero.mp h]
  | succ n ih =>
    rcases Nat.lt_or_ge m (n + 1) with hm | hm
    · have hmn : m ≤ n := by omega
      have h1 : currentIndex cond u m ≤ currentIndex cond u n := ih hmn
      simp only [currentIndex]
      split
      · exact h1.trans ((currentIndex_le cond u n).trans (Nat.le_succ n))
      · exact h1
    · have : m = n + 1 := by omega
      subst this
      exact le_refl _

theorem currentIndex_eq_succ_iff (cond : ℕ → ℕ → ℚ) (u : ℕ → ℚ) (n : ℕ) :
    currentIndex cond u (n + 1) = n + 1 ↔
      u (n + 1) ≤ cond (currentIndex cond u n) (n + 1) := by
  simp only [currentIndex]
  constructor
  · intro h
    by_contra hc
    rw [if_neg hc] at h
    have := currentIndex_le cond u n
    omega
  · intro h
    rw [if_pos h]

/-! ### Supporting lemmas about `min`/`max` on IEEE values -/

theorem extLe_refl (a : PyFloat) (h : a ≠ .nan) : extLe a a := by
  cases a <;> simp_all [extLe]

theorem extLe_trans {a b c : PyFloat} (hab : extLe a b) (hbc : extLe b c) :
    extLe a c := by
  cases a <;> cases b <;> cases c <;> simp_all [extLe]
  exact hab.trans hbc

theorem extLe_of_fltLt {a b : PyFloat} (h : fltLt a b = true) : extLe a b := by
  cases a <;> cases b <;> simp_all [fltLt, extLe]
  exact le_of_lt h

theorem extLe_not_nan_left {a b : PyFloat} (h : extLe a b) : a ≠ .nan := by
  cases a <;> simp_all [extLe]

theorem extLe_not_nan_right {a b : PyFloat} (h : extLe a b) : b ≠ .nan := by
  cases a <;> cases b <;> simp_all [extLe]

theorem pyMinAux_extLe (rest : List PyFloat) :
    ∀ cur : PyFloat, cur ≠ .nan → extLe (pyMinAux rest cur) cur := by
  induction rest with
  | nil => intro cur h; exact extLe_refl cur h
  | cons x t ih =>
    intro cur h
    simp only [pyMinAux]
    by_cases hx : fltLt x cur = true
    · rw [if_pos hx]
      have hxc : extLe x cur := extLe_of_fltLt hx
      exact extLe_trans (ih x (extLe_not_nan_left hxc)) hxc
    · rw [if_neg hx]
      exact ih cur h

theorem pyMaxAux_extLe (rest : List PyFloat) :
    ∀ cur : PyFloat, cur ≠ .nan → extLe cur (pyMaxAux rest cur) := by
  induction rest with
  | nil => intro cur h; exact extLe_refl cur h
  | cons x t ih =>
    intro cur h
    simp only [pyMaxAux]
    by_cases hx : fltGt x cur = true
    · rw [if_pos hx]
      have hcx : extLe cur x := extLe_of_fltLt hx
      exact extLe_trans hcx (ih x (extLe_not_nan_right hcx))
    · rw [if_neg hx]
      exact ih cur h

theorem pyMinAux_nan (rest : List PyFloat) : pyMinAux rest .nan = .nan := by
  induction rest with
  | nil => rfl
  | cons x t ih =>
    simp only [pyMinAux]
    have : fltLt x .nan = false := by cases x <;> rfl
    rw [this]
    simpa using ih

theorem pyMaxAux_nan (rest : List PyFloat) : pyMaxAux rest .nan = .nan := by
  induction rest with
  | nil => rfl
  | cons x t ih =>
    simp only [pyMaxAux]
    have : fltGt x .nan = false := by cases x <;> rfl
    rw [this]
    simpa using ih

/-- Inside the guard, `min(log_ratio) - max(log_ratio)` is never a positive
finite value: it is `NaN`, `-inf`, or a finite value `≤ 0`.  Hence only the
sign of `expOverflowCutoff` matters to `fltExpIsFinite` there. -/
theorem fltSub_pyMin_pyMax_not_pos (lrF : List PyFloat) (q : ℚ)
    (h : fltSub (pyMin lrF) (pyMax lrF) = .fin q) : q ≤ 0 := by
  match lrF with
  | [] => simp [pyMin, pyMax, fltSub] at h
  | x :: rest =>
    by_cases hx : x = .nan
    · subst hx
      rw [pyMin, pyMax, pyMinAux_nan, pyMaxAux_nan] at h
      simp [fltSub] at h
    · have hmin : extLe (pyMinAux rest x) x := pyMinAux_extLe rest x hx
      have hmax : extLe x (pyMaxAux rest x) := pyMaxAux_extLe rest x hx
      have hle : extLe (pyMinAux rest x) (pyMaxAux rest x) := extLe_trans hmin hmax
      rw [pyMin, pyMax] at h
      revert h hle
      cases pyMinAux rest x <;> cases pyMaxAux rest x <;>
        simp_all [extLe, fltSub] <;> intro h1 h2 <;> linarith

/-! ## Claim theorems -/

/-- **C8.** For every configuration vector of length `2 * size_half` and for
both parities, splitting into passive and active halves via the layer's index
slices and rejoining them with the layer's join function reproduces the
vector exactly: `join(split(v)) == v`. -/
theorem join_split_roundtrip (evenSites : Bool) (sizeHalf : ℕ) (v : List ℚ)
    (hv : v.length = 2 * sizeHalf) :
    joinHalves evenSites (passiveSlice evenSites sizeHalf v)
      (activeSlice evenSites sizeHalf v) = v := by
  cases evenSites
  · rw [passiveSlice_odd sizeHalf v hv, activeSlice_odd, joinHalves]
    simp [List.take_append_drop]
  · rw [passiveSlice_even, activeSlice_even sizeHalf v hv, joinHalves]
    simp [List.take_append_drop]

/-- Witness for C8 at a concrete vector of length `2 * 2`, odd parity. -/
theorem join_split_roundtrip_witness :
    ([1, 2, 3, 4] : List ℚ).length = 2 * 2 ∧
      joinHalves false (passiveSlice false 2 [1, 2, 3, 4])
        (activeSlice false 2 [1, 2, 3, 4]) = ([1, 2, 3, 4] : List ℚ) :=
  ⟨by decide, join_split_roundtrip false 2 [1, 2, 3, 4] (by decide)⟩

/-- **C9.** Every `sample_batch` call performs the two debug filesystem writes
of `sample.py` lines 68-69 (`np.savetxt("base.txt", z)` and
`np.savetxt("target.txt", phi)`), so the core sampling path does write files,
contradicting the claim that core logic never touches the filesystem. -/
theorem sample_batch_file_writes {α : Type} (lrF : List PyFloat) (qexp : ℚ → ℚ)
    (mld : ℕ → ℚ) (action vol : α → ℚ) (phi : ℕ → α) (u : ℕ → ℚ)
    (batchSize : ℕ) (cur : Option (α × ℚ)) :
    (sampleBatchRun lrF qexp mld action vol phi u batchSize cur).fileWrites
        = ["base.txt", "target.txt"] ∧
      (sampleBatchRun lrF qexp mld action vol phi u batchSize cur).fileWrites ≠ [] :=
  ⟨rfl, by simp [sampleBatchRun]⟩

/-- **C7.** `RationalQuadraticSplineLayer.forward` never reaches its output:
every call raises `NameError` (`d_raw` is undefined at `layers.py:547`; with
`z2_equivar` set, `v_in_passive_stand` is undefined at line 519 already), so
in particular no out-of-interval component is ever mapped to itself.  Shown
here on a batch element with an active component `7` outside `[-5, 5]`. -/
theorem rqs_forward_raises :
    rqsForward true 1 5 false [0, 7] 0
        = .error "NameError: name d_raw is not defined" ∧
      rqsForward true 1 5 true [0, 7] 0
        = .error "NameError: name v_in_passive_stand is not defined" :=
  ⟨rfl, rfl⟩

/-- **C2 (counterexample).** With zero model log-density, unit action and zero
volume term, the code's log-ratio (`sample.py` line 80) at candidate 0 is
`+1`, whereas the spec's formula `model_log_density − action` (volume term
subtracted) gives `−1`: the code adds the action instead of subtracting it. -/
theorem log_ratio_sign_counterexample :
    logRatio (fun _ => (0 : ℚ)) (fun _ : ℚ => (1 : ℚ)) (fun _ => (0 : ℚ))
        (fun _ => (0 : ℚ)) 0 = 1 ∧
      specLogRatio (fun _ => (0 : ℚ)) (fun _ : ℚ => (1 : ℚ)) (fun _ => (0 : ℚ))
        (fun _ => (0 : ℚ)) 0 = -1 := by
  constructor
  · norm_num [logRatio]
  · norm_num [specLogRatio]

/-- **C2 (amended).** In `sample_batch` the log-ratio used for the acceptance
decision is computed for every candidate `j` as `model_log_density_j` *plus*
`action(config_j)` (the action being the negative log unnormalized target
density), minus the log-volume-element term declared by the base
distribution — with the carried-in state overwriting index 0 first. -/
theorem log_ratio_amended {α : Type} (qexp : ℚ → ℚ) (mld : ℕ → ℚ)
    (action vol : α → ℚ) (phi : ℕ → α) (u : ℕ → ℚ) (batchSize : ℕ)
    (cur : Option (α × ℚ)) (j : ℕ) (hj1 : 1 ≤ j) (hj2 : j ≤ batchSize) :
    effLogRatio mld action vol phi cur j
        = effMld mld cur j + action (effPhi phi cur j) - vol (effPhi phi cur j) ∧
      (sampleBatchScan qexp mld action vol phi u batchSize cur).history.getD (j - 1) false
        = decide (u j ≤ min 1 (qexp
            ((effMld mld cur (currentIndex (scanCond qexp mld action vol phi cur) u (j - 1))
                + action (effPhi phi cur (currentIndex (scanCond qexp mld action vol phi cur) u (j - 1)))
                - vol (effPhi phi cur (currentIndex (scanCond qexp mld action vol phi cur) u (j - 1))))
              - (effMld mld cur j + action (effPhi phi cur j) - vol (effPhi phi cur j))))) := by
  have hj : j - 1 + 1 = j := by omega
  have ht : j - 1 < batchSize := by omega
  refine ⟨rfl, ?_⟩
  have hhist : (sampleBatchScan qexp mld action vol phi u batchSize cur).history
      = acceptHistory (scanCond qexp mld action vol phi cur) u batchSize := rfl
  rw [hhist, acceptHistory_eq, getD_map_range _ _ ht]
  simp only [acceptedAt]
  rw [hj]
  rfl

/-- Witness for the amended C2 at a concrete batch: unit action on a constant
configuration, one proposal, uniform draw `1/2`, abstract `exp ≡ 1`. -/
theorem log_ratio_amended_witness :
    effLogRatio (α := ℚ) (fun _ => 0) (fun _ => 1) (fun _ => 0) (fun _ => 3) none 1 = 1 ∧
      (sampleBatchScan (fun _ => (1 : ℚ)) (fun _ => (0 : ℚ)) (fun _ => (1 : ℚ))
          (fun _ => (0 : ℚ)) (fun _ => (3 : ℚ)) (fun _ => (1 : ℚ) / 2) 1 none).history.getD 0 false
        = true := by
  have h := log_ratio_amended (α := ℚ) (fun _ => 1) (fun _ => 0) (fun _ => 1)
    (fun _ => 0) (fun _ => 3) (fun _ => (1 : ℚ) / 2) 1 none 1 (le_refl 1) (le_refl 1)
  constructor
  · rw [h.1]
    norm_num [effMld, effPhi, overwrite0]
  · rw [h.2]
    simp only [decide_eq_true_eq]
    norm_num

/-- **C3 (counterexample).** For the history `[reject, accept]` (`N = 2`, one
maximal rejection run of length 1), the code normalizes the lag-1 bin by
`N + 1 − 1 = 2` giving `tau_int = 1` and stride `2`, whereas the claimed
normalization by `N − lag = 1` gives `tau_int = 3/2` and stride `3`. -/
theorem chain_autocorrelation_normalization_counterexample :
    sampleIntervalOf [false, true] = 2 ∧ specSampleInterval [false, true] = 3 := by
  have hauto : autocorrelations [false, true] = addRun (fun _ => 0) 1 := rfl
  have hruns : rejectionRuns [false, true] = [1] := rfl
  constructor
  · rw [sampleIntervalOf, integratedAutocorrelation, hauto]
    have hlen : ([false, true] : List Bool).length = 2 := rfl
    rw [hlen]
    rw [Finset.sum_range_succ, Finset.sum_range_succ, Finset.sum_range_succ,
      Finset.sum_range_zero]
    norm_num [addRun]
  · rw [specSampleInterval]
    have hlen : ([false, true] : List Bool).length = 2 := rfl
    rw [hlen]
    have hIcc : (Finset.Icc 1 2 : Finset ℕ) = {1, 2} := rfl
    rw [hIcc, Finset.sum_insert (by norm_num), Finset.sum_singleton]
    norm_num [runBins, hruns, runContribution]

/-- **C3 (amended).** From the accept/reject history of `N` proposals,
`chain_autocorrelation` adds, for every maximal run of `r` consecutive
rejections, the decreasing contributions `r, r−1, …, 1` to lag bins `1..r`,
normalizes the bin at each lag by `N + 1 − lag` (not `N − lag`), sets
`tau_int = 0.5` plus the sum of the normalized bins, and returns the stride
`ceil(2 * tau_int)`. -/
theorem chain_autocorrelation_amended (history : List Bool) :
    sampleIntervalOf history =
      ⌈2 * (1 / 2 + ∑ lag in Finset.range (history.length + 1),
        runBins history lag / ((history.length : ℚ) + 1 - (lag : ℚ)))⌉ := by
  unfold sampleIntervalOf integratedAutocorrelation
  rw [Finset.sum_congr rfl fun lag _ => by rw [autocorrelations_eq_runBins]]

/-- **C1.** The accept/reject scan of `sample_batch` runs strictly in index
order starting from current index `i = 0`: at each step `j = 1..batch_size`
the proposal is accepted exactly when the fresh uniform draw `u j` is at most
`min(1, exp(log_ratio[i] - log_ratio[j]))` (recording `true` and moving the
current index to `j`), otherwise the current index stays and `false` is
recorded; and the `j`-th output chain element is the configuration at the
current index after this decision. -/
theorem sample_batch_sequential_scan {α : Type} (qexp : ℚ → ℚ) (mld : ℕ → ℚ)
    (action vol : α → ℚ) (phi : ℕ → α) (u : ℕ → ℚ) (batchSize : ℕ)
    (cur : Option (α × ℚ)) (dflt : α) (j : ℕ) (hj1 : 1 ≤ j) (hj2 : j ≤ batchSize) :
    currentIndex (scanCond qexp mld action vol phi cur) u 0 = 0 ∧
    (sampleBatchScan qexp mld action vol phi u batchSize cur).history.getD (j - 1) false
      = decide (u j ≤ min 1 (qexp
          (effLogRatio mld action vol phi cur
              (currentIndex (scanCond qexp mld action vol phi cur) u (j - 1))
            - effLogRatio mld action vol phi cur j))) ∧
    currentIndex (scanCond qexp mld action vol phi cur) u j
      = (if u j ≤ min 1 (qexp
          (effLogRatio mld action vol phi cur
              (currentIndex (scanCond qexp mld action vol phi cur) u (j - 1))
            - effLogRatio mld action vol phi cur j))
         then j else currentIndex (scanCond qexp mld action vol phi cur) u (j - 1)) ∧
    (sampleBatchScan qexp mld action vol phi u batchSize cur).chain.getD (j - 1) dflt
      = effPhi phi cur (currentIndex (scanCond qexp mld action vol phi cur) u j) := by
  have hj : j - 1 + 1 = j := by omega
  have ht : j - 1 < batchSize := by omega
  refine ⟨rfl, ?_, ?_, ?_⟩
  · have hhist : (sampleBatchScan qexp mld action vol phi u batchSize cur).history
        = acceptHistory (scanCond qexp mld action vol phi cur) u batchSize := rfl
    rw [hhist, acceptHistory_eq, getD_map_range _ _ ht]
    simp only [acceptedAt]
    rw [hj]
    rfl
  · conv_lhs => rw [← hj]
    simp only [currentIndex]
    rw [hj]
    rfl
  · have hchain : (sampleBatchScan qexp mld action vol phi u batchSize cur).chain
        = (chainIndices (scanCond qexp mld action vol phi cur) u batchSize).map
            (effPhi phi cur) := rfl
    rw [hchain, chainIndices_eq, List.map_map, getD_map_range _ _ ht]
    simp only [Function.comp_apply, hj]

/-- Witness for C1 at a concrete batch: constant log-ratio data, one
proposal, uniform draw `1/2`, abstract `exp ≡ 1`, so the proposal is
accepted and the chain element is candidate 1. -/
theorem sample_batch_sequential_scan_witness :
    (sampleBatchScan (fun _ => (1 : ℚ)) (fun _ => (0 : ℚ)) (fun _ : ℚ => (0 : ℚ))
        (fun _ : ℚ => (0 : ℚ)) (fun k => (k : ℚ)) (fun _ => (1 : ℚ) / 2) 1
        none).history.getD 0 false = true ∧
      (sampleBatchScan (fun _ => (1 : ℚ)) (fun _ => (0 : ℚ)) (fun _ : ℚ => (0 : ℚ))
        (fun _ : ℚ => (0 : ℚ)) (fun k => (k : ℚ)) (fun _ => (1 : ℚ) / 2) 1
        none).chain.getD 0 0 = 1 := by
  have h := sample_batch_sequential_scan (α := ℚ) (fun _ => (1 : ℚ)) (fun _ => (0 : ℚ))
    (fun _ => (0 : ℚ)) (fun _ => (0 : ℚ)) (fun k => (k : ℚ)) (fun _ => (1 : ℚ) / 2) 1
    none 0 1 (le_refl 1) (le_refl 1)
  constructor
  · rw [h.2.1]
    simp only [decide_eq_true_eq]
    norm_num
  · rw [h.2.2.2]
    have hacc : currentIndex
        (scanCond (fun _ => (1 : ℚ)) (fun _ => (0 : ℚ)) (fun _ : ℚ => (0 : ℚ))
          (fun _ : ℚ => (0 : ℚ)) (fun k => (k : ℚ)) none) (fun _ => (1 : ℚ) / 2) 1 = 1 := by
      rw [h.2.2.1]
      rw [if_pos (by norm_num)]
    rw [hacc]
    rfl

/-- **C10.** The chain indices produced by `sample_batch` form a
non-decreasing sequence, `chain_indices[j-1]` always lies in `{0, …, j}`,
it equals `j` exactly when `history[j-1]` is true, and every returned chain
element is one of the `batch_size + 1` candidate configurations (with the
carried-in state occupying index 0). -/
theorem chain_indices_invariants {α : Type} (qexp : ℚ → ℚ) (mld : ℕ → ℚ)
    (action vol : α → ℚ) (phi : ℕ → α) (u : ℕ → ℚ) (batchSize : ℕ)
    (cur : Option (α × ℚ)) (dflt : α) (j : ℕ) (hj1 : 1 ≤ j) (hj2 : j ≤ batchSize) :
    (chainIndices (scanCond qexp mld action vol phi cur) u batchSize).getD (j - 1) 0 ≤ j ∧
    (∀ j', 1 ≤ j' → j' ≤ j →
      (chainIndices (scanCond qexp mld action vol phi cur) u batchSize).getD (j' - 1) 0
        ≤ (chainIndices (scanCond qexp mld action vol phi cur) u batchSize).getD (j - 1) 0) ∧
    ((chainIndices (scanCond qexp mld action vol phi cur) u batchSize).getD (j - 1) 0 = j ↔
      (sampleBatchScan qexp mld action vol phi u batchSize cur).history.getD (j - 1) false
        = true) ∧
    (∃ k, k ≤ batchSize ∧
      (sampleBatchScan qexp mld action vol phi u batchSize cur).chain.getD (j - 1) dflt
        = effPhi phi cur k) := by
  have hj : j - 1 + 1 = j := by omega
  have ht : j - 1 < batchSize := by omega
  have hval : ∀ j', 1 ≤ j' → j' ≤ batchSize →
      (chainIndices (scanCond qexp mld action vol phi cur) u batchSize).getD (j' - 1) 0
        = currentIndex (scanCond qexp mld action vol phi cur) u j' := by
    intro j' h1 h2
    rw [chainIndices_eq, getD_map_range _ _ (by omega : j' - 1 < batchSize)]
    congr 1
    omega
  refine ⟨?_, ?_, ?_, ?_⟩
  · rw [hval j hj1 hj2]
    exact currentIndex_le _ u j
  · intro j' h1 h2
    rw [hval j hj1 hj2, hval j' h1 (h2.trans hj2)]
    exact currentIndex_mono _ u h2
  · rw [hval j hj1 hj2]
    have hhist : (sampleBatchScan qexp mld action vol phi u batchSize cur).history
        = acceptHistory (scanCond qexp mld action vol phi cur) u batchSize := rfl
    rw [hhist, acceptHistory_eq, getD_map_range _ _ ht]
    simp only [acceptedAt, hj, decide_eq_true_eq]
    have hgen := currentIndex_eq_succ_iff (scanCond qexp mld action vol phi cur) u (j - 1)
    rw [hj] at hgen
    exact hgen
  · refine ⟨currentIndex (scanCond qexp mld action vol phi cur) u j,
      (currentIndex_le _ u j).trans hj2, ?_⟩
    have hchain : (sampleBatchScan qexp mld action vol phi u batchSize cur).chain
        = (chainIndices (scanCond qexp mld action vol phi cur) u batchSize).map
            (effPhi phi cur) := rfl
    rw [hchain, chainIndices_eq, List.map_map, getD_map_range _ _ ht]
    simp only [Function.comp_apply, hj]

/-- Witness for C10 at the same concrete batch as the C1 witness. -/
theorem chain_indices_invariants_witness :
    (chainIndices (scanCond (fun _ => (1 : ℚ)) (fun _ => (0 : ℚ)) (fun _ : ℚ => (0 : ℚ))
        (fun _ : ℚ => (0 : ℚ)) (fun k => (k : ℚ)) none) (fun _ => (1 : ℚ) / 2) 1).getD 0 0 ≤ 1 ∧
      (∃ k, k ≤ 1 ∧
        (sampleBatchScan (fun _ => (1 : ℚ)) (fun _ => (0 : ℚ)) (fun _ : ℚ => (0 : ℚ))
          (fun _ : ℚ => (0 : ℚ)) (fun k => (k : ℚ)) (fun _ => (1 : ℚ) / 2) 1
          none).chain.getD 0 0
          = effPhi (fun k => (k : ℚ)) none k) := by
  have h := chain_indices_invariants (α := ℚ) (fun _ => (1 : ℚ)) (fun _ => (0 : ℚ))
    (fun _ => (0 : ℚ)) (fun _ => (0 : ℚ)) (fun k => (k : ℚ)) (fun _ => (1 : ℚ) / 2) 1
    none 0 1 (le_refl 1) (le_refl 1)
  exact ⟨h.1, h.2.2.2⟩

/-- **C4.** `sample_batch` raises the distinct `LogRatioNanError` — producing
no chain output — exactly when `exp(min(log_ratio) - max(log_ratio))` over
the batch is not finite; the guard value is never clamped or recovered from,
and when the condition does not hold the batch proceeds normally to the
accept/reject scan. -/
theorem log_ratio_guard_characterisation {α : Type} (lrF : List PyFloat)
    (qexp : ℚ → ℚ) (mld : ℕ → ℚ) (action vol : α → ℚ) (phi : ℕ → α)
    (u : ℕ → ℚ) (batchSize : ℕ) (cur : Option (α × ℚ)) :
    logRatioGuard lrF = fltExpIsFinite (fltSub (pyMin lrF) (pyMax lrF)) ∧
    ((∃ e, sampleBatch lrF qexp mld action vol phi u batchSize cur = .error e) ↔
      logRatioGuard lrF = false) ∧
    (logRatioGuard lrF = false →
      sampleBatch lrF qexp mld action vol phi u batchSize cur
        = .error (.logRatioNan
            "could run into nans based on minimum and maximum log of ratio of probabilities")) ∧
    (logRatioGuard lrF = true →
      sampleBatch lrF qexp mld action vol phi u batchSize cur
        = .ok (sampleBatchScan qexp mld action vol phi u batchSize cur)) := by
  refine ⟨rfl, ?_, ?_, ?_⟩
  · constructor
    · rintro ⟨e, he⟩
      by_contra hg
      have hg' : logRatioGuard lrF = true := by
        cases hgval : logRatioGuard lrF
        · exact absurd hgval hg
        · rfl
      unfold sampleBatch at he
      rw [if_pos hg'] at he
      exact absurd he (by simp)
    · intro hg
      unfold sampleBatch
      rw [if_neg (by simp [hg])]
      exact ⟨_, rfl⟩
  · intro hg
    unfold sampleBatch
    rw [if_neg (by simp [hg])]
  · intro hg
    unfold sampleBatch
    rw [if_pos hg]

/-- Witness for C4: a batch whose log-ratio list contains a `NaN` (so
`min - max` is `NaN` and the guard value non-finite) raises the error, and a
batch with a finite log-ratio list proceeds to the scan. -/
theorem log_ratio_guard_witness :
    sampleBatch (α := ℚ) [.nan] (fun _ => 1) (fun _ => 0) (fun _ => 0) (fun _ => 0)
        (fun _ => 0) (fun _ => 0) 0 none
      = .error (.logRatioNan
          "could run into nans based on minimum and maximum log of ratio of probabilities") ∧
    sampleBatch (α := ℚ) [.fin 0] (fun _ => 1) (fun _ => 0) (fun _ => 0) (fun _ => 0)
        (fun _ => 0) (fun _ => 0) 0 none
      = .ok (sampleBatchScan (fun _ => 1) (fun _ => 0) (fun _ => 0) (fun _ => 0)
          (fun _ => 0) (fun _ => 0) 0 none) := by
  constructor
  · exact (log_ratio_guard_characterisation [.nan] (fun _ => 1) (fun _ => 0)
      (fun _ => 0) (fun _ => 0) (fun _ => 0) (fun _ => 0) 0 none).2.2.1 rfl
  · refine (log_ratio_guard_characterisation [.fin 0] (fun _ => 1) (fun _ => 0)
      (fun _ => 0) (fun _ => 0) (fun _ => 0) (fun _ => 0) 0 none).2.2.2 ?_
    show fltExpIsFinite (fltSub (pyMin [.fin 0]) (pyMax [.fin 0])) = true
    show decide ((0 : ℚ) - 0 < expOverflowCutoff) = true
    rw [decide_eq_true_eq]
    norm_num [expOverflowCutoff]

/-! ### Supporting lemmas for the coupling-layer claims -/

theorem affineForward_fst (evenSites : Bool) (sizeHalf : ℕ) (qexp : ℚ → ℚ)
    (stand sNet tNet : List ℚ → List ℚ) (z2Equivar : Bool) (v : List ℚ)
    (logDensity : ℚ) :
    (affineForward evenSites sizeHalf qexp stand sNet tNet z2Equivar v logDensity).1
      = joinHalves evenSites (passiveSlice evenSites sizeHalf v)
          (List.zipWith (fun a st => (a - st.2) * qexp (-st.1))
            (activeSlice evenSites sizeHalf v)
            ((affineS evenSites sizeHalf stand sNet z2Equivar v).zip
              (affineT evenSites sizeHalf stand tNet v))) := rfl

theorem length_passiveSlice (evenSites : Bool) (sizeHalf : ℕ) (v : List ℚ)
    (hv : v.length = 2 * sizeHalf) :
    (passiveSlice evenSites sizeHalf v).length = sizeHalf := by
  cases evenSites <;> (simp [passiveSlice, sliceList, hv]; omega)

theorem length_activeSlice (evenSites : Bool) (sizeHalf : ℕ) (v : List ℚ)
    (hv : v.length = 2 * sizeHalf) :
    (activeSlice evenSites sizeHalf v).length = sizeHalf := by
  cases evenSites <;> (simp [activeSlice, sliceList, hv]; omega)

theorem length_affineS (evenSites : Bool) (sizeHalf : ℕ)
    (stand sNet : List ℚ → List ℚ) (z2Equivar : Bool) (v : List ℚ)
    (hs : (sNet (stand (passiveSlice evenSites sizeHalf v))).length = sizeHalf) :
    (affineS evenSites sizeHalf stand sNet z2Equivar v).length = sizeHalf := by
  unfold affineS
  split <;> simp [hs]

theorem knots_mono_of_adjacent (K : ℕ) (knots : List ℚ) (hlen : knots.length = K + 1)
    (hadj : ∀ i, i < K → knots.getD i 0 < knots.getD (i + 1) 0) :
    ∀ i j, i < j → j < knots.length → knots.getD i 0 < knots.getD j 0 := by
  intro i j
  induction j with
  | zero => omega
  | succ j ihj =>
    intro hij hj
    rcases Nat.lt_or_ge i j with hij' | hij'
    · exact (ihj hij' (by omega)).trans (hadj j (by omega))
    · have hij'' : i = j := by omega
      subst hij''
      exact hadj i (by omega)

/-- **C5.** `AffineLayer.forward` leaves the passive half unchanged, maps each
active component to `(active_in - t(passive)) * exp(-s(passive))`, and adds
the sum over active sites of `s(passive)` to the log-density, where `s` is
replaced by `|s|` before both uses when the sign-equivariant flag
`z2_equivar` is set. -/
theorem affine_forward_spec (evenSites z2Equivar : Bool) (sizeHalf : ℕ)
    (qexp : ℚ → ℚ) (stand sNet tNet : List ℚ → List ℚ) (v : List ℚ) (logDensity : ℚ)
    (hv : v.length = 2 * sizeHalf)
    (hs : (sNet (stand (passiveSlice evenSites sizeHalf v))).length = sizeHalf)
    (ht : (tNet (stand (passiveSlice evenSites sizeHalf v))).length = sizeHalf) :
    (affineForward evenSites sizeHalf qexp stand sNet tNet z2Equivar v logDensity).2
        = logDensity + (affineS evenSites sizeHalf stand sNet z2Equivar v).sum ∧
      (z2Equivar = true → affineS evenSites sizeHalf stand sNet z2Equivar v
        = (sNet (stand (passiveSlice evenSites sizeHalf v))).map (fun x => |x|)) ∧
      (∀ k, k < 2 * sizeHalf → passivePos evenSites sizeHalf k →
        (affineForward evenSites sizeHalf qexp stand sNet tNet z2Equivar v logDensity).1.getD k 0
          = v.getD k 0) ∧
      (∀ k, k < 2 * sizeHalf → ¬ passivePos evenSites sizeHalf k →
        (affineForward evenSites sizeHalf qexp stand sNet tNet z2Equivar v logDensity).1.getD k 0
          = (v.getD k 0
              - (affineT evenSites sizeHalf stand tNet v).getD
                  (activeIdxOf evenSites sizeHalf k) 0)
            * qexp (-(affineS evenSites sizeHalf stand sNet z2Equivar v).getD
                  (activeIdxOf evenSites sizeHalf k) 0)) := by
  have hsl := length_affineS evenSites sizeHalf stand sNet z2Equivar v hs
  have htl : (affineT evenSites sizeHalf stand tNet v).length = sizeHalf := ht
  have hal := length_activeSlice evenSites sizeHalf v hv
  have hpl := length_passiveSlice evenSites sizeHalf v hv
  refine ⟨rfl, fun h => by simp [affineS, h], ?_, ?_⟩
  · intro k hk hpk
    rw [affineForward_fst]
    cases evenSites
    · -- odd: join = active' ++ passive, passive positions are sizeHalf ≤ k
      have hk' : sizeHalf ≤ k := by simpa [passivePos] using hpk
      rw [joinHalves]
      simp only [Bool.false_eq_true, if_neg (by simp : ¬False)]
      rw [List.getD_append_right _ _ _ _ (by
        rw [List.length_zipWith, List.length_zip, hsl, htl, hal]
        omega)]
      rw [List.length_zipWith, List.length_zip, hsl, htl, hal]
      simp only [min_self]
      rw [passiveSlice_odd sizeHalf v hv, getD_drop]
      congr 1
      omega
    · -- even: join = passive ++ active', passive positions are k < sizeHalf
      have hk' : k < sizeHalf := by simpa [passivePos] using hpk
      rw [joinHalves, if_pos rfl]
      rw [List.getD_append _ _ _ _ (by rw [hpl]; exact hk')]
      rw [passiveSlice_even, getD_take _ _ _ _ hk']
  · intro k hk hpk
    rw [affineForward_fst]
    cases evenSites
    · -- odd: active positions are k < sizeHalf, active index is k itself
      have hk' : k < sizeHalf := by
        by_contra hc
        exact hpk (by simp [passivePos]; omega)
      rw [joinHalves]
      simp only [Bool.false_eq_true, if_neg (by simp : ¬False)]
      rw [List.getD_append _ _ _ _ (by
        rw [List.length_zipWith, List.length_zip, hsl, htl, hal]
        omega)]
      rw [getD_zipWith _ 0 (0, 0) _ _ _ _ (by rw [hal]; exact hk')
        (by rw [List.length_zip, hsl, htl]; simp [hk'])]
      rw [getD_zip 0 0 _ _ _ (by rw [hsl]; exact hk') (by rw [htl]; exact hk')]
      rw [activeSlice_odd, getD_take _ _ _ _ hk']
      simp [activeIdxOf]
    · -- even: active positions are sizeHalf ≤ k, active index is k - sizeHalf
      have hk' : sizeHalf ≤ k := by
        by_contra hc
        exact hpk (by simp [passivePos]; omega)
      rw [joinHalves, if_pos rfl]
      rw [List.getD_append_right _ _ _ _ (by rw [hpl]; exact hk')]
      rw [hpl]
      rw [getD_zipWith _ 0 (0, 0) _ _ _ _ (by rw [hal]; omega)
        (by rw [List.length_zip, hsl, htl]; simp; omega)]
      rw [getD_zip 0 0 _ _ _ (by rw [hsl]; omega) (by rw [htl]; omega)]
      rw [activeSlice_even sizeHalf v hv, getD_drop]
      have hkk : sizeHalf + (k - sizeHalf) = k := by omega
      rw [hkk]
      simp [activeIdxOf]

/-- Witness for C5: even parity, `z2_equivar` set, `size_half = 1`,
`s ≡ [-2]`, `t ≡ [3]`, identity `stand` and `exp`, input `[5, 7]`. -/
theorem affine_forward_spec_witness :
    (affineForward true 1 id id (fun _ => [-2]) (fun _ => [3]) true [5, 7] 1).1.getD 0 0 = 5 ∧
      (affineForward true 1 id id (fun _ => [-2]) (fun _ => [3]) true [5, 7] 1).1.getD 1 0
        = ((7 : ℚ) - 3) * -|(-2 : ℚ)| ∧
      (affineForward true 1 id id (fun _ => [-2]) (fun _ => [3]) true [5, 7] 1).2
        = 1 + |(-2 : ℚ)| := by
  have h := affine_forward_spec true true 1 id id (fun _ => [-2]) (fun _ => [3]) [5, 7] 1
    (by simp) (by simp) (by simp)
  refine ⟨?_, ?_, ?_⟩
  · have hp := h.2.2.1 0 (by omega) (by simp [passivePos])
    simpa using hp
  · have ha := h.2.2.2 1 (by omega) (by simp [passivePos])
    rw [ha]
    simp [affineS, affineT, activeIdxOf, passiveSlice, sliceList]
  · rw [h.1]
    simp [affineS, passiveSlice, sliceList]

/-- **C6 (counterexample).** With knots `[0, 1/2, 1]` (`K = 2`) and the query
`v = 1/2` sitting exactly on the interior knot, the lookup returns bin `0`,
which does not satisfy `knot_x[k] ≤ v < knot_x[k+1]`; the unique index
satisfying that property is `1`, not `0`. -/
theorem bin_locator_counterexample :
    binLocator 2 [0, 1/2, 1] (1/2) = 0 ∧
      ¬ (([0, 1/2, 1] : List ℚ).getD 0 0 ≤ 1/2 ∧ (1/2 : ℚ) < ([0, 1/2, 1] : List ℚ).getD 1 0) ∧
      (([0, 1/2, 1] : List ℚ).getD 1 0 ≤ 1/2 ∧ (1/2 : ℚ) < ([0, 1/2, 1] : List ℚ).getD 2 0) := by
  refine ⟨?_, ?_, ?_⟩
  · rw [binLocator, searchsortedLeft]
    norm_num [List.countP_cons]
  · norm_num
  · norm_num

/-- **C6 (amended).** On a strictly increasing knot row of length `K + 1`,
the lookup `(searchsorted - 1).clamp(0, K-1)` returns, for queries strictly
between the outer knots, the unique bin `k` with
`knot_x[k] < value ≤ knot_x[k+1]` (left-open, right-closed, because
`searchsorted` uses `side='left'`); queries at or below the bottom knot map
to bin `0` and queries above the top knot map to bin `K - 1`; and the batched
lookup treats every (batch, site) query independently. -/
theorem bin_locator_amended (K : ℕ) (knots : List ℚ) (v : ℚ)
    (hK : 1 ≤ K) (hlen : knots.length = K + 1)
    (hadj : ∀ i, i < K → knots.getD i 0 < knots.getD (i + 1) 0) :
    (∀ k, k < K → knots.getD k 0 < v → v ≤ knots.getD (k + 1) 0 →
      binLocator K knots v = k) ∧
    (v ≤ knots.getD 0 0 → binLocator K knots v = 0) ∧
    (knots.getD K 0 < v → binLocator K knots v = K - 1) ∧
    (∀ vs : List ℚ, binLocatorBatch K knots vs = vs.map (binLocator K knots)) := by
  have hmono := knots_mono_of_adjacent K knots hlen hadj
  refine ⟨?_, ?_, ?_, fun vs => rfl⟩
  · intro k hk hlow hhigh
    have hss := searchsortedLeft_sorted v k knots hmono (by omega) hlow hhigh
    rw [binLocator, hss]
    simp only [Nat.add_sub_cancel]
    omega
  · intro hv
    have hss := searchsortedLeft_eq_zero v knots hmono hv
    rw [binLocator, hss]
    simp
  · intro hv
    have hss := searchsortedLeft_eq_length v knots hmono (by
      rw [hlen]
      simpa using hv)
    rw [binLocator, hss, hlen]
    simp only [Nat.add_sub_cancel]
    omega

/-- Witness for the amended C6: knots `[0, 1/2, 1]`, query `1/4` lands in bin
`0`, query `1/2` (on the interior knot) lands in bin `0` by the left-open
rule, and query `2` beyond the top knot is clamped to bin `1`. -/
theorem bin_locator_amended_witness :
    binLocator 2 [0, 1/2, 1] (1/4) = 0 ∧
      binLocator 2 [0, 1/2, 1] (1/2) = 0 ∧
      binLocator 2 [0, 1/2, 1] 2 = 1 := by
  have hadj : ∀ i, i < 2 → ([0, 1/2, 1] : List ℚ).getD i 0 < ([0, 1/2, 1] : List ℚ).getD (i + 1) 0 := by
    intro i hi
    interval_cases i <;> norm_num
  have h := bin_locator_amended 2 [0, 1/2, 1] (1/4) (by omega) (by simp) hadj
  have h' := bin_locator_amended 2 [0, 1/2, 1] (1/2) (by omega) (by simp) hadj
  have h'' := bin_locator_amended 2 [0, 1/2, 1] 2 (by omega) (by simp) hadj
  refine ⟨h.1 0 (by omega) (by norm_num) (by norm_num),
    h'.1 0 (by omega) (by norm_num) (by norm_num),
    h''.2.2.1 (by norm_num)⟩

end NormFlow
